import Mathlib

/-!
Verification of `local_cache_tool.py`.

The program is a small GUI tool whose core is a sequential copy worker
(`CopyThread.run`), a recursive file counter (`get_total_files`), a byte-size
formatter (`format_size`) and a pair of settings helpers
(`read_temp_file` / `write_temp_file`).

We shallowly embed the relevant parts:
  * paths are lists of name components (`List String`);
  * the filesystem is a flat association list from absolute paths to entries;
  * the pathlib `rglob("*.*")` call enumerates every entry strictly below a path
    whose final name matches the `fnmatch` translation of `*.*`, i.e. whose
    final name contains at least one dot (pathlib does not special-case
    leading dots, and the pattern also matches directories);
  * fallible operations (`shutil.copy2`, `Path.mkdir`, `Path.rename`,
    `Path.relative_to`, `json.load`) return `Option`/`Except`, with `none` /
    `.error` standing for a raised exception.
-/

/-! ### Paths -/

/-- Python `Path.name`: the final component of a path (`""` for the empty path). -/
def lastName (p : List String) : String := p.getLastD ""

/-- The rename target `source.parent / f"_{source.name}"`, the underscore-prefixed sibling used
as the "migrated" marker (line 142 of the source). -/
def rn_path (p : List String) : List String := p.dropLast ++ ["_" ++ lastName p]

/-- Python `Path.relative_to`: strips the root prefix; raises `ValueError` (modelled
as `none`) when the path does not lie under the root. -/
def relative_to (p root : List String) : Option (List String) :=
  if root.isPrefixOf p then some (p.drop root.length) else none

/-- Destination mapping `self.destination_root / f.relative_to(self.source_root)` (lines 105, 120):
the destination path of a source path. -/
def dest_path (droot sroot f : List String) : Option (List String) :=
  (relative_to f sroot).map (fun rel => droot ++ rel)

/-! ### Filesystem -/

/-- A filesystem entry: a regular file (content plus the metadata that
`shutil.copy2` carries over) or a directory. -/
inductive Entry
  | file (content : String) (meta : Nat)
  | dir
deriving DecidableEq, Repr

/-- A filesystem: a flat association list from absolute paths to entries. -/
abbrev FS := List (List String × Entry)

/-- Look an absolute path up in the filesystem (first match). -/
def lookupFS (fs : FS) (p : List String) : Option Entry :=
  match fs with
  | [] => none
  | (q, e) :: rest => if q = p then some e else lookupFS rest p

/-- Write an entry at a path: overwrite in place when present, else append. -/
def setEntry (fs : FS) (p : List String) (e : Entry) : FS :=
  match fs with
  | [] => [(p, e)]
  | (q, e') :: rest => if q = p then (p, e) :: rest else (q, e') :: setEntry rest p e

/-- The `fnmatch` translation of the glob pattern `*.*` is the regex
`.*\..*`: it accepts exactly the names that contain at least one dot.
pathlib applies it to the name of every directory entry, dotfiles included. -/
def matches_pat (name : String) : Bool := name.data.any (fun c => c == '.')

/-- Model of `path.rglob("*.*")` (lines 78 and 110): every entry strictly below `p`
whose final name contains a dot — regular files and directories alike. -/
def rglob_dots (fs : FS) (p : List String) : List (List String) :=
  (fs.map Prod.fst).filter
    (fun q => p.isPrefixOf q && decide (p.length < q.length) && matches_pat (lastName q))

/-- Model of `get_total_files` (lines 66-79): sums `len(list(path.rglob("*.*")))`
over the given paths. -/
def get_total_files (fs : FS) (paths : List (List String)) : Nat :=
  (paths.map (fun p => (rglob_dots fs p).length)).sum

/-- One step of `Path.mkdir(parents=True, exist_ok=True)`: create one
ancestor if absent; an existing directory is fine (`exist_ok`), an existing
regular file raises `FileExistsError` (`none`). -/
def mkdirStep (fs : FS) (pre : List String) : Option FS :=
  match lookupFS fs pre with
  | none => some (setEntry fs pre Entry.dir)
  | some Entry.dir => some fs
  | some (Entry.file _ _) => none

/-- Model of `destination.mkdir(parents=True, exist_ok=True)` (line 107): create the
directory and all missing ancestors. -/
def mkdir_parents (fs : FS) (p : List String) : Option FS :=
  (List.inits p).foldlM mkdirStep fs

/-- Model of `shutil.copy2(f, d)` (line 131). When `d` is an existing directory the
copy goes to `d / f.name`; copying a path equal to the source raises
`SameFileError`; a directory source or destination raises
`IsADirectoryError`; a missing source or a missing/non-directory parent of
the destination raises `FileNotFoundError` / `NotADirectoryError`. Every
raised exception is `none`. -/
def copy2_target (fs : FS) (src dst : List String) : List String :=
  match lookupFS fs dst with
  | some Entry.dir => dst ++ [lastName src]
  | _ => dst

def copy2_at (fs : FS) (src d : List String) : Option FS :=
  if d = src then none
  else
    match lookupFS fs src with
    | some (Entry.file c m) =>
      match lookupFS fs d with
      | some Entry.dir => none
      | _ =>
        match lookupFS fs d.dropLast with
        | some Entry.dir => some (setEntry fs d (Entry.file c m))
        | _ => none
    | _ => none

def copy2 (fs : FS) (src dst : List String) : Option FS :=
  copy2_at fs src (copy2_target fs src dst)

/-- The per-entry relocation a rename applies: entries under `src` move to
the corresponding path under `dst`; everything else stays. -/
def rnMap (src dst : List String) (pe : List String × Entry) : List String × Entry :=
  if src.isPrefixOf pe.1 then (dst ++ pe.1.drop src.length, pe.2) else pe

/-- Model of `os.rename` via `Path.rename` (line 142): move the whole subtree rooted
at `src` to `dst`; raises when `src` is missing or `dst` already exists. -/
def renameFS (fs : FS) (src dst : List String) : Option FS :=
  match lookupFS fs src with
  | none => none
  | some _ =>
    match lookupFS fs dst with
    | some _ => none
    | none => some (fs.map (rnMap src dst))

/-! ### The copy worker -/

/-- Join a path with `/` separators; Python compares `Path` objects by their
full path string, which is the order `sorted` uses at line 110. -/
def joinP : List String → String
  | [] => ""
  | [x] => x
  | x :: xs => x ++ "/" ++ joinP xs

/-- Lexicographic comparison of character lists by Unicode code point —
exactly how Python compares the two path strings. -/
def listCharLt : List Char → List Char → Bool
  | [], [] => false
  | [], _ :: _ => true
  | _ :: _, [] => false
  | a :: as, b :: bs =>
    if a.toNat < b.toNat then true
    else if b.toNat < a.toNat then false
    else listCharLt as bs

def strLtB (a b : String) : Bool := listCharLt a.data b.data

/-- Insert into a list sorted by the path-string order. -/
def insertSorted (x : List String) : List (List String) → List (List String)
  | [] => [x]
  | y :: ys => if strLtB (joinP y) (joinP x) then y :: insertSorted x ys else x :: y :: ys

/-- Model of `sorted(...)` (line 110): ascending by path string. -/
def sortPaths (l : List (List String)) : List (List String) :=
  l.foldr insertSorted []

/-- Lines 94-95: `copied_files = 0.0001` and
`transfer_percentage = copied_files / total_files` — a `ZeroDivisionError`
(`none`) whenever the up-front total is zero. -/
def initial_transfer_percentage (total_files : Nat) : Option ℚ :=
  if total_files = 0 then none else some ((1 / 10000 : ℚ) / total_files)

/-- The inner loop of `CopyThread.run` (lines 118-139): copy each enumerated
entry to its destination path computed by root substitution. -/
def copyFiles (droot sroot : List String) (fs : FS) (files : List (List String)) : Option FS :=
  files.foldlM (fun acc f =>
    match dest_path droot sroot f with
    | some d => copy2 acc f d
    | none => none) fs

/-- The body of the per-folder loop of `CopyThread.run` (lines 99-142):
compute the mirrored destination folder and create it (with parents),
enumerate `source.rglob("*.*")` in sorted order, copy each entry to its
destination path, then rename the source folder to its underscore-prefixed
sibling.  The time-estimation arithmetic (lines 116-128) only reads the
clock and divides by the strictly positive `transfer_percentage`, so it
neither fails nor touches the filesystem and is not part of the state. -/
def processFolder (sroot droot : List String) (fs : FS) (source : List String) : Option FS :=
  match relative_to source sroot with
  | none => none
  | some rel =>
    match mkdir_parents fs (droot ++ rel) with
    | none => none
    | some fs1 =>
      match copyFiles droot sroot fs1 (sortPaths (rglob_dots fs1 source)) with
      | none => none
      | some fs2 => renameFS fs2 source (rn_path source)

/-- Model of `CopyThread.run` (lines 92-144): the up-front total (whose use at line 95
raises `ZeroDivisionError` when it is zero), then the sequential per-folder
loop.  The final `progress_update.emit(100)` has no filesystem effect. -/
def runCopyThread (source_paths : List (List String)) (sroot droot : List String)
    (fs : FS) : Option FS :=
  if get_total_files fs source_paths = 0 then none
  else source_paths.foldlM (processFolder sroot droot) fs

/-! ### format_size (lines 164-169) -/

/-- Fuel-recursive model of `int.bit_length`, so that it reduces in the kernel:
the number of binary digits of `n` (0 for 0). -/
def bl_fuel : Nat → Nat → Nat
  | 0, _ => 0
  | fuel + 1, n => if n = 0 then 0 else bl_fuel fuel (n / 2) + 1

/-- The Python expression `int(size_bytes).bit_length()`. -/
def bit_length (n : Nat) : Nat := bl_fuel n n

/-- The unit-name tuple of `format_size`. -/
def size_names : List String :=
  ["B", "KB", "MB", "GB", "TB", "PB", "EB", "ZB", "YB"]

/-- The Python format `f"{i:.1f}"` applied to the integer `i` (the value is always an
exact integer here, so the single decimal is always `.0`). -/
def fmt1 (n : Nat) : String := toString n ++ ".0"

/-- Model of `format_size` (lines 164-169).  The walrus `i := min(bit_length // 10, 8)`
computes the unit index, which the enclosing assignment immediately
overwrites with the scaled integer value `int(size_bytes // 1024 ** i)`;
that same `i` is then used both as the printed value and as the index into
`size_names`, where an index above 8 raises `IndexError` (`none`). -/
def format_size (size_bytes : Nat) : Option String :=
  if size_bytes = 0 then some "0 B"
  else
    let j := min (bit_length size_bytes / 10) 8
    let i := size_bytes / 1024 ^ j
    match size_names.get? i with
    | some u => some (fmt1 i ++ " " ++ u)
    | none => none


/-! ### JSON settings file (`read_temp_file` / `write_temp_file`, lines 36-63)

`json.load` / `json.dump` are stdlib collaborators; we model the JSON
fragment this program can meet: `null`, booleans, integer numbers, strings
with the common escapes, arrays and objects (floating-point literals,
`\uXXXX` escapes and `NaN`/`Infinity` are outside the modelled fragment).
A parse failure models `json.JSONDecodeError`. -/

inductive JValue
  | jnull
  | jbool (b : Bool)
  | jnum (n : Int)
  | jstr (s : String)
  | jarr (elems : List JValue)
  | jobj (fields : List (String × JValue))

def is_ws (c : Char) : Bool := c == ' ' || c == '\t' || c == '\n' || c == '\r'

def skip_ws : List Char → List Char
  | [] => []
  | c :: cs => if is_ws c then skip_ws cs else c :: cs

def parse_string_chars : List Char → List Char → Option (String × List Char)
  | [], _ => none
  | c :: cs, acc =>
    if c = '"' then some (String.mk acc.reverse, cs)
    else if c = '\\' then
      match cs with
      | [] => none
      | e :: cs' =>
        if e = '"' then parse_string_chars cs' ('"' :: acc)
        else if e = '\\' then parse_string_chars cs' ('\\' :: acc)
        else if e = '/' then parse_string_chars cs' ('/' :: acc)
        else if e = 'n' then parse_string_chars cs' ('\n' :: acc)
        else if e = 't' then parse_string_chars cs' ('\t' :: acc)
        else if e = 'r' then parse_string_chars cs' ('\r' :: acc)
        else none
    else parse_string_chars cs (c :: acc)

def parse_digits : List Char → Nat → Bool → Option (Nat × List Char)
  | [], acc, seen => if seen then some (acc, []) else none
  | c :: cs, acc, seen =>
    if c.isDigit then parse_digits cs (acc * 10 + (c.toNat - 48)) true
    else if seen then some (acc, c :: cs) else none

def strip_kw : List Char → List Char → Option (List Char)
  | [], cs => some cs
  | _ :: _, [] => none
  | k :: ks, c :: cs => if c = k then strip_kw ks cs else none

def lbraceC : Char := Char.ofNat 123

def rbraceC : Char := Char.ofNat 125

/-- Parser modes: a single value, the tail of an array after `[`, the tail
of an object after the opening brace. -/
inductive PMode | value | elems | fields

/-- Parser results, one constructor per mode. -/
inductive PRes
  | val (v : JValue)
  | lst (vs : List JValue)
  | flds (fs : List (String × JValue))

def parseP : Nat → PMode → List Char → Option (PRes × List Char)
  | 0, _, _ => none
  | fuel + 1, PMode.value, cs =>
    match cs with
    | [] => none
    | c :: cs' =>
      if c = '"' then
        match parse_string_chars cs' [] with
        | some (s, rest) => some (PRes.val (JValue.jstr s), rest)
        | none => none
      else if c = '[' then
        match skip_ws cs' with
        | ']' :: rest => some (PRes.val (JValue.jarr []), rest)
        | cs'' =>
          match parseP fuel PMode.elems cs'' with
          | some (PRes.lst vs, rest) => some (PRes.val (JValue.jarr vs), rest)
          | _ => none
      else if c = lbraceC then
        match skip_ws cs' with
        | d :: rest =>
          if d = rbraceC then some (PRes.val (JValue.jobj []), rest)
          else
            match parseP fuel PMode.fields (d :: rest) with
            | some (PRes.flds fs, rest') => some (PRes.val (JValue.jobj fs), rest')
            | _ => none
        | [] => none
      else if c = 'n' then
        match strip_kw ['u', 'l', 'l'] cs' with
        | some rest => some (PRes.val JValue.jnull, rest)
        | none => none
      else if c = 't' then
        match strip_kw ['r', 'u', 'e'] cs' with
        | some rest => some (PRes.val (JValue.jbool true), rest)
        | none => none
      else if c = 'f' then
        match strip_kw ['a', 'l', 's', 'e'] cs' with
        | some rest => some (PRes.val (JValue.jbool false), rest)
        | none => none
      else if c = '-' then
        match parse_digits cs' 0 false with
        | some (n, rest) => some (PRes.val (JValue.jnum (-(n : Int))), rest)
        | none => none
      else if c.isDigit then
        match parse_digits (c :: cs') 0 false with
        | some (n, rest) => some (PRes.val (JValue.jnum (n : Int)), rest)
        | none => none
      else none
  | fuel + 1, PMode.elems, cs =>
    match parseP fuel PMode.value (skip_ws cs) with
    | some (PRes.val v, rest) =>
      match skip_ws rest with
      | ',' :: rest' =>
        match parseP fuel PMode.elems rest' with
        | some (PRes.lst vs, rest'') => some (PRes.lst (v :: vs), rest'')
        | _ => none
      | ']' :: rest' => some (PRes.lst [v], rest')
      | _ => none
    | _ => none
  | fuel + 1, PMode.fields, cs =>
    match skip_ws cs with
    | c :: cs' =>
      if c = '"' then
        match parse_string_chars cs' [] with
        | some (k, rest) =>
          match skip_ws rest with
          | ':' :: rest' =>
            match parseP fuel PMode.value (skip_ws rest') with
            | some (PRes.val v, rest'') =>
              match skip_ws rest'' with
              | ',' :: rest3 =>
                match parseP fuel PMode.fields rest3 with
                | some (PRes.flds fs, rest4) => some (PRes.flds ((k, v) :: fs), rest4)
                | _ => none
              | d :: rest3 =>
                if d = rbraceC then some (PRes.flds [(k, v)], rest3)
                else none
              | [] => none
            | _ => none
          | _ => none
        | none => none
      else none
    | [] => none

/-- Model of `json.load`: parse a complete document; anything but a single value
followed by whitespace is a `JSONDecodeError` (`none`). -/
def json_loads (s : String) : Option JValue :=
  match parseP (2 * s.length + 2) PMode.value (skip_ws s.data) with
  | some (PRes.val v, rest) => if skip_ws rest = [] then some v else none
  | _ => none

/-- Python truthiness of a decoded JSON value, for the `or {}` at line 49. -/
def json_truthy : JValue → Bool
  | JValue.jnull => false
  | JValue.jbool b => b
  | JValue.jnum n => decide (n ≠ 0)
  | JValue.jstr s => decide (s ≠ "")
  | JValue.jarr vs => !vs.isEmpty
  | JValue.jobj fs => !fs.isEmpty

/-- Model of `read_temp_file` (lines 36-50).  The temp file is `none` when
`temp_file.is_file()` is false, otherwise `some content`.  The function
returns `json.load(read_file) or {}` — there is no handler around
`json.load`, so a parse failure propagates to the caller (`.error ()`). -/
def read_temp_file (tempFile : Option String) : Except Unit JValue :=
  match tempFile with
  | none => Except.ok (JValue.jobj [])
  | some content =>
    match json_loads content with
    | some v => Except.ok (if json_truthy v then v else JValue.jobj [])
    | none => Except.error ()

def escape_json : List Char → List Char
  | [] => []
  | c :: cs =>
    if c = '"' then '\\' :: '"' :: escape_json cs
    else if c = '\\' then '\\' :: '\\' :: escape_json cs
    else c :: escape_json cs

def quoteS (s : String) : String := "\"" ++ String.mk (escape_json s.data) ++ "\""

/-- Model of `json.dump` with its default separators `", "` and `": "`, restricted to
the only shape this program ever writes (`save_roots_to_temp_file`, lines
220-223): a flat object whose values are strings. -/
def json_dump_str_obj (fields : List (String × String)) : String :=
  "\x7b" ++ String.intercalate ", " (fields.map (fun kv => quoteS kv.1 ++ ": " ++ quoteS kv.2)) ++ "\x7d"

/-- Model of `write_temp_file` (lines 53-63): serialize the record, overwriting the
temp file; the result is the new file content. -/
def write_temp_file (data : List (String × String)) : String := json_dump_str_obj data

/-! ### Concrete trees and records used by the claim instances -/

/-- A source folder with a single top-level file. -/
def fsFlat : FS := [(["L", "s1"], Entry.dir), (["L", "s1", "a.txt"], Entry.file "x" 1)]

/-- A source folder whose only matched file sits in a nested subdirectory. -/
def fsNested : FS := [(["L"], Entry.dir), (["L", "s1"], Entry.dir),
  (["L", "s1", "sub"], Entry.dir), (["L", "s1", "sub", "f.txt"], Entry.file "x" 1),
  (["D"], Entry.dir)]

/-- A source folder with a dotfile, an extension-less file, and files at two
levels. -/
def fsDots : FS := [(["L"], Entry.dir), (["L", "s1"], Entry.dir),
  (["L", "s1", "noext"], Entry.file "n" 1), (["L", "s1", ".env"], Entry.file "e" 1),
  (["L", "s1", "a.txt"], Entry.file "a" 1), (["L", "s1", "sub"], Entry.dir),
  (["L", "s1", "sub", "b.txt"], Entry.file "b" 1)]

/-- A source folder containing a subdirectory whose name contains a dot. -/
def fsDirDot : FS := [(["L"], Entry.dir), (["L", "s1"], Entry.dir),
  (["L", "s1", "v1.0"], Entry.dir), (["L", "s1", "v1.0", "img.png"], Entry.file "i" 1),
  (["D"], Entry.dir)]

/-- A source folder in which no entry matches `*.*`. -/
def fsNoMatch : FS := [(["L"], Entry.dir), (["L", "s1"], Entry.dir),
  (["L", "s1", "noext"], Entry.file "n" 1)]

/-- The filesystem produced by a successful run on `fsFlat` (folders
`[["L","s1"]]`, source root `["L"]`, destination root `["D"]`). -/
def fsFlatDone : FS := [(["L", "_s1"], Entry.dir), (["L", "_s1", "a.txt"], Entry.file "x" 1),
  ([], Entry.dir), (["D"], Entry.dir), (["D", "s1"], Entry.dir),
  (["D", "s1", "a.txt"], Entry.file "x" 1)]

/-- The decoded settings record `{"source_root": "A", "destination_root": "B"}`. -/
def settingsAB : JValue :=
  JValue.jobj [("source_root", JValue.jstr "A"), ("destination_root", JValue.jstr "B")]

/-! ### The folder-loop invariant -/

/-- Invariant of the folder loop of `CopyThread.run`, relating the current
filesystem `fsc` to the initial one `fs0` after the folders in `S` have been
processed and with the folders in `T` still pending: pending folders and
their underscore-siblings are untouched, processed folders are gone, their
underscore-siblings hold the original subtree, their matched files have
been copied, and every directory in the destination region is an ancestor
of the mirrored directory of some processed folder. -/
structure FoldInv (sr dr : List String) (fs0 fsc : FS) (S T : List (List String)) : Prop where
  untouched : ∀ p ∈ T, ∀ q, lookupFS fsc (p ++ q) = lookupFS fs0 (p ++ q)
  fresh : ∀ p ∈ T, ∀ q, lookupFS fsc (rn_path p ++ q) = none
  gone : ∀ p ∈ S, ∀ q, lookupFS fsc (p ++ q) = none
  moved : ∀ p ∈ S, ∀ q, lookupFS fsc (rn_path p ++ q) = lookupFS fs0 (p ++ q)
  copiedf : ∀ p ∈ S, ∀ f ∈ rglob_dots fs0 p, ∃ c m,
    lookupFS fs0 f = some (Entry.file c m) ∧
    lookupFS fsc (dr ++ f.drop sr.length) = some (Entry.file c m)
  destdirs : ∀ q, dr <+: q → lookupFS fsc q = some Entry.dir →
    ∃ p ∈ S, q <+: dr ++ p.drop sr.length

/-! ## Lemmas -/

theorem pref_bool {l₁ l₂ : List String} : l₁.isPrefixOf l₂ = true ↔ l₁ <+: l₂ :=
  List.isPrefixOf_iff_prefix

theorem pref_comparable {α : Type} {a b c : List α} (h1 : a <+: c) (h2 : b <+: c) :
    a <+: b ∨ b <+: a :=
  List.prefix_or_prefix_of_prefix h1 h2

theorem not_pref_ext {α : Type} {x y : List α} (h1 : ¬ x <+: y) (h2 : ¬ y <+: x)
    (q : List α) : ¬ x <+: y ++ q := by
  intro h
  rcases pref_comparable h (List.prefix_append y q) with h' | h'
  · exact h1 h'
  · exact h2 h'

theorem pref_cancel {α : Type} {u s t : List α} : u ++ s <+: u ++ t ↔ s <+: t := by
  constructor
  · rintro ⟨w, hw⟩
    rw [List.append_assoc] at hw
    exact ⟨w, List.append_cancel_left hw⟩
  · rintro ⟨w, rfl⟩
    exact ⟨w, by simp⟩

theorem pref_of_drop {sr p : List String} (h : sr <+: p) :
    sr ++ p.drop sr.length = p := by
  obtain ⟨t, rfl⟩ := h
  rw [List.drop_left]

theorem getLastD_irrel {α : Type} {v : List α} (hv : v ≠ []) (d d' : α) :
    v.getLastD d = v.getLastD d' := by
  rcases v with _ | ⟨a, w⟩
  · exact absurd rfl hv
  · rfl

theorem getLastD_append_ne {α : Type} (u : List α) {v : List α} (hv : v ≠ []) (d : α) :
    (u ++ v).getLastD d = v.getLastD d := by
  induction u generalizing d with
  | nil => rfl
  | cons a u ih =>
    have h1 : ((a :: u) ++ v).getLastD d = (u ++ v).getLastD a := by
      rw [List.cons_append]
      rcases hu : u ++ v with _ | ⟨b, w⟩
      · rcases List.append_eq_nil.mp hu with ⟨-, h2⟩
        exact absurd h2 hv
      · rfl
    rw [h1, ih a, getLastD_irrel hv a d]

theorem dropLast_append_ne {α : Type} (u : List α) {v : List α} (hv : v ≠ []) :
    (u ++ v).dropLast = u ++ v.dropLast := by
  induction u with
  | nil => rfl
  | cons a u ih =>
    have hne : u ++ v ≠ [] := by
      intro h
      rcases List.append_eq_nil.mp h with ⟨-, h2⟩
      exact hv h2
    rw [List.cons_append]
    rcases hu : u ++ v with _ | ⟨b, w⟩
    · exact absurd hu hne
    · show a :: (b :: w).dropLast = (a :: u) ++ v.dropLast
      rw [← hu, ih]
      rfl

theorem lastName_append_ne (u : List String) {v : List String} (hv : v ≠ []) :
    lastName (u ++ v) = lastName v :=
  getLastD_append_ne u hv ""

theorem rn_decomp {sr v : List String} (hv : v ≠ []) :
    rn_path (sr ++ v) = sr ++ (v.dropLast ++ ["_" ++ lastName v]) := by
  unfold rn_path
  rw [dropLast_append_ne sr hv, lastName_append_ne sr hv, List.append_assoc]

theorem rn_sr_pref {sr p : List String} (hp : sr <+: p) (hne : p ≠ sr) :
    sr <+: rn_path p := by
  obtain ⟨v, rfl⟩ := hp
  have hv : v ≠ [] := by
    rintro rfl
    simp at hne
  rw [rn_decomp hv]
  exact List.prefix_append _ _

theorem lastName_eq_getLast {p : List String} (hp : p ≠ []) : lastName p = p.getLast hp := by
  unfold lastName
  rw [List.getLastD_eq_getLast?, List.getLast?_eq_getLast p hp]
  rfl

theorem self_eq_dropLast_last {p : List String} (hp : p ≠ []) :
    p = p.dropLast ++ [lastName p] := by
  rw [lastName_eq_getLast hp]
  exact (List.dropLast_append_getLast hp).symm

theorem rn_length {p : List String} (hp : p ≠ []) : (rn_path p).length = p.length := by
  unfold rn_path
  rw [List.length_append, List.length_dropLast]
  have h0 : 0 < p.length := List.length_pos.mpr hp
  have h1 : (["_" ++ lastName p] : List String).length = 1 := rfl
  rw [h1]
  omega

theorem rn_ne {p : List String} (hp : p ≠ []) : rn_path p ≠ p := by
  intro h
  unfold rn_path at h
  conv_rhs at h => rw [self_eq_dropLast_last hp]
  have h2 : "_" ++ lastName p = lastName p := by
    have := List.append_cancel_left h
    injection this
  have h3 := congrArg String.length h2
  rw [String.length_append] at h3
  have h4 : "_".length = 1 := rfl
  rw [h4] at h3
  omega

theorem rn_not_pref {p : List String} (hp : p ≠ []) :
    ¬ rn_path p <+: p ∧ ¬ p <+: rn_path p := by
  constructor
  · intro h
    exact rn_ne hp (h.eq_of_length (rn_length hp))
  · intro h
    exact rn_ne hp (h.eq_of_length (rn_length hp).symm).symm

theorem sr_dr_excl {sr dr x : List String} (h1 : ¬ sr <+: dr) (h2 : ¬ dr <+: sr)
    (hx1 : sr <+: x) (hx2 : dr <+: x) : False := by
  rcases pref_comparable hx1 hx2 with h | h
  · exact h1 h
  · exact h2 h

theorem sr_ext_not_pref_target {sr dr x : List String} (h1 : ¬ sr <+: dr)
    (h2 : ¬ dr <+: sr) (hx : sr <+: x) (t : List String) : ¬ x <+: dr ++ t := by
  intro h
  rcases pref_comparable h (List.prefix_append dr t) with h' | h'
  · exact h1 (hx.trans h')
  · exact sr_dr_excl h1 h2 hx h'

theorem append_ne_nil_right {α : Type} (u : List α) {v : List α} (hv : v ≠ []) :
    u ++ v ≠ [] := by
  intro h
  rcases List.append_eq_nil.mp h with ⟨-, h2⟩
  exact hv h2

theorem lookup_set (fs : FS) (p : List String) (e : Entry) (q : List String) :
    lookupFS (setEntry fs p e) q = if q = p then some e else lookupFS fs q := by
  induction fs with
  | nil =>
    simp only [setEntry, lookupFS]
    by_cases h : q = p
    · subst h
      simp
    · simp [h, Ne.symm h]
  | cons pe rest ih =>
    rcases pe with ⟨q', e'⟩
    simp only [setEntry]
    by_cases h1 : q' = p
    · subst h1
      simp only [if_pos rfl, lookupFS]
      by_cases h2 : q = q'
      · subst h2
        simp
      · simp [h2, Ne.symm h2]
    · simp only [if_neg h1, lookupFS, ih]
      by_cases h2 : q' = q
      · subst h2
        simp [h1]
      · simp [h2]

theorem lookup_some_mem {fs : FS} {q : List String} {e : Entry}
    (h : lookupFS fs q = some e) : (q, e) ∈ fs := by
  induction fs with
  | nil => exact absurd h (by simp [lookupFS])
  | cons pe rest ih =>
    rcases pe with ⟨q', e'⟩
    by_cases hq : q' = q
    · subst hq
      rw [lookupFS, if_pos rfl] at h
      injection h with h
      subst h
      exact List.mem_cons_self _ _
    · rw [lookupFS, if_neg hq] at h
      exact List.mem_cons_of_mem _ (ih h)

theorem lookup_isSome_of_mem {fs : FS} {q : List String} {e : Entry}
    (h : (q, e) ∈ fs) : (lookupFS fs q).isSome = true := by
  induction fs with
  | nil => simp at h
  | cons pe rest ih =>
    rcases pe with ⟨q', e'⟩
    by_cases hq : q' = q
    · rw [lookupFS, if_pos hq]
      rfl
    · rw [lookupFS, if_neg hq]
      rcases List.mem_cons.mp h with h1 | h1
      · injection h1 with ha hb
        exact absurd ha.symm hq
      · exact ih h1

theorem lookup_none_of_no_entry {fs : FS} {x : List String}
    (h : ∀ pe ∈ fs, ¬ x <+: pe.1) : ∀ q, x <+: q → lookupFS fs q = none := by
  intro q hq
  cases hl : lookupFS fs q with
  | none => rfl
  | some e => exact absurd hq (h _ (lookup_some_mem hl))

theorem mem_fst_iff_lookup {fs : FS} {q : List String} :
    q ∈ fs.map Prod.fst ↔ (lookupFS fs q).isSome = true := by
  constructor
  · intro h
    rcases List.mem_map.mp h with ⟨⟨q₁, e⟩, hm, he⟩
    cases he
    exact lookup_isSome_of_mem hm
  · intro h
    cases hl : lookupFS fs q with
    | none => rw [hl] at h; exact absurd h (by simp)
    | some e => exact List.mem_map.mpr ⟨(q, e), lookup_some_mem hl, rfl⟩

theorem mem_rglob {fs : FS} {p f : List String} :
    f ∈ rglob_dots fs p ↔ (lookupFS fs f).isSome = true ∧
      (p.isPrefixOf f && decide (p.length < f.length) && matches_pat (lastName f)) = true := by
  unfold rglob_dots
  rw [List.mem_filter, mem_fst_iff_lookup]

theorem mem_insertSorted {x y : List String} {l : List (List String)} :
    y ∈ insertSorted x l ↔ y = x ∨ y ∈ l := by
  induction l with
  | nil => simp [insertSorted]
  | cons a l ih =>
    unfold insertSorted
    by_cases h : strLtB (joinP a) (joinP x) = true
    · rw [if_pos h]
      rw [List.mem_cons, ih, List.mem_cons]
      tauto
    · rw [if_neg h]
      rw [List.mem_cons, List.mem_cons]

theorem mem_sortPaths {f : List String} {l : List (List String)} :
    f ∈ sortPaths l ↔ f ∈ l := by
  induction l with
  | nil => simp [sortPaths]
  | cons a l ih =>
    show f ∈ insertSorted a (sortPaths l) ↔ _
    rw [mem_insertSorted, ih, List.mem_cons]

theorem foldlM_cons_some {α σ : Type} (g : σ → α → Option σ) (s : σ) (x : α)
    (xs : List α) (r : σ) (h : (x :: xs).foldlM g s = some r) :
    ∃ s1, g s x = some s1 ∧ xs.foldlM g s1 = some r := by
  rw [List.foldlM_cons] at h
  cases hg : g s x with
  | none => rw [hg] at h; exact absurd h (by simp [Option.bind])
  | some s1 =>
    rw [hg] at h
    exact ⟨s1, rfl, by simpa using h⟩

theorem foldlM_nil_some {α σ : Type} (g : σ → α → Option σ) (s r : σ)
    (h : ([] : List α).foldlM g s = some r) : r = s := by
  simp [List.foldlM] at h
  exact h.symm

theorem mkdirStep_frame {fs fs' : FS} {pre q : List String}
    (h : mkdirStep fs pre = some fs') (hq : pre ≠ q) :
    lookupFS fs' q = lookupFS fs q := by
  unfold mkdirStep at h
  cases hl : lookupFS fs pre with
  | none =>
    rw [hl] at h
    injection h with h
    subst h
    rw [lookup_set]
    simp [Ne.symm hq]
  | some e =>
    rw [hl] at h
    cases e with
    | dir =>
      injection h with h
      subst h
      rfl
    | file c m => exact absurd h (by simp)

theorem mkdirStep_dir_char {fs fs' : FS} {pre q : List String}
    (h : mkdirStep fs pre = some fs')
    (hd : lookupFS fs' q = some Entry.dir) :
    lookupFS fs q = some Entry.dir ∨ q = pre := by
  unfold mkdirStep at h
  cases hl : lookupFS fs pre with
  | none =>
    rw [hl] at h
    injection h with h
    subst h
    rw [lookup_set] at hd
    by_cases hq : q = pre
    · exact Or.inr hq
    · rw [if_neg hq] at hd
      exact Or.inl hd
  | some e =>
    rw [hl] at h
    cases e with
    | dir =>
      injection h with h
      subst h
      exact Or.inl hd
    | file c m => exact absurd h (by simp)

theorem mkdirStep_file_frame {fs fs' : FS} {pre q : List String} {c : String} {m : Nat}
    (h : mkdirStep fs pre = some fs')
    (hf : lookupFS fs q = some (Entry.file c m)) :
    lookupFS fs' q = some (Entry.file c m) := by
  by_cases hq : pre = q
  · subst hq
    unfold mkdirStep at h
    rw [hf] at h
    exact absurd h (by simp)
  · rw [mkdirStep_frame h hq, hf]

theorem mkdir_fold_frame {pres : List (List String)} {fs fs' : FS} {q : List String}
    (h : pres.foldlM mkdirStep fs = some fs') (hq : ∀ pre ∈ pres, pre ≠ q) :
    lookupFS fs' q = lookupFS fs q := by
  induction pres generalizing fs with
  | nil => rw [foldlM_nil_some _ _ _ h]
  | cons a l ih =>
    obtain ⟨s1, h1, h2⟩ := foldlM_cons_some _ _ _ _ _ h
    rw [ih h2 (fun pre hp => hq pre (List.mem_cons_of_mem _ hp)),
      mkdirStep_frame h1 (hq a (List.mem_cons_self _ _))]

theorem mkdir_frame {fs fs' : FS} {t q : List String}
    (h : mkdir_parents fs t = some fs') (hq : ¬ q <+: t) :
    lookupFS fs' q = lookupFS fs q := by
  refine mkdir_fold_frame h (fun pre hp => ?_)
  intro he
  subst he
  exact hq ((List.mem_inits _ _).mp hp)

theorem mkdir_dir_char {fs fs' : FS} {t q : List String}
    (h : mkdir_parents fs t = some fs')
    (hd : lookupFS fs' q = some Entry.dir) :
    lookupFS fs q = some Entry.dir ∨ q <+: t := by
  unfold mkdir_parents at h
  have hgen : ∀ (pres : List (List String)) (fs : FS),
      pres.foldlM mkdirStep fs = some fs' → (∀ pre ∈ pres, pre <+: t) →
      lookupFS fs q = some Entry.dir ∨ q <+: t := by
    intro pres
    induction pres with
    | nil =>
      intro fs h0 _
      rw [← foldlM_nil_some _ _ _ h0]
      exact Or.inl hd
    | cons a l ih =>
      intro fs h0 hmem
      obtain ⟨s1, h1, h2⟩ := foldlM_cons_some _ _ _ _ _ h0
      rcases ih s1 h2 (fun pre hp => hmem pre (List.mem_cons_of_mem _ hp)) with h3 | h3
      · rcases mkdirStep_dir_char h1 h3 with h4 | h4
        · exact Or.inl h4
        · subst h4
          exact Or.inr (hmem q (List.mem_cons_self _ _))
      · exact Or.inr h3
  exact hgen _ _ h (fun pre hp => (List.mem_inits _ _).mp hp)

theorem mkdir_file_frame {fs fs' : FS} {t q : List String} {c : String} {m : Nat}
    (h : mkdir_parents fs t = some fs')
    (hf : lookupFS fs q = some (Entry.file c m)) :
    lookupFS fs' q = some (Entry.file c m) := by
  unfold mkdir_parents at h
  have hgen : ∀ (pres : List (List String)) (fs : FS),
      pres.foldlM mkdirStep fs = some fs' →
      lookupFS fs q = some (Entry.file c m) →
      lookupFS fs' q = some (Entry.file c m) := by
    intro pres
    induction pres with
    | nil =>
      intro fs h0 hf0
      rw [foldlM_nil_some _ _ _ h0]
      exact hf0
    | cons a l ih =>
      intro fs h0 hf0
      obtain ⟨s1, h1, h2⟩ := foldlM_cons_some _ _ _ _ _ h0
      exact ih s1 h2 (mkdirStep_file_frame h1 hf0)
  exact hgen _ _ h hf

theorem copy2_at_shape {fs fs' : FS} {src d : List String}
    (h : copy2_at fs src d = some fs') :
    ∃ c m, lookupFS fs src = some (Entry.file c m) ∧
      ¬ lookupFS fs d = some Entry.dir ∧
      fs' = setEntry fs d (Entry.file c m) := by
  unfold copy2_at at h
  by_cases hds : d = src
  · rw [if_pos hds] at h
    exact absurd h (by simp)
  · rw [if_neg hds] at h
    cases hsrc : lookupFS fs src with
    | none => rw [hsrc] at h; exact absurd h (by simp)
    | some e =>
      rw [hsrc] at h
      cases e with
      | dir => exact absurd h (by simp)
      | file c m =>
        cases hdd : lookupFS fs d with
        | none =>
          rw [hdd] at h
          cases hdp : lookupFS fs d.dropLast with
          | none => rw [hdp] at h; exact absurd h (by simp)
          | some e2 =>
            rw [hdp] at h
            cases e2 with
            | dir =>
              injection h with h
              exact ⟨c, m, rfl, by simp [hdd], h.symm⟩
            | file c2 m2 => exact absurd h (by simp)
        | some e1 =>
          rw [hdd] at h
          cases e1 with
          | dir => exact absurd h (by simp)
          | file c1 m1 =>
            cases hdp : lookupFS fs d.dropLast with
            | none => rw [hdp] at h; exact absurd h (by simp)
            | some e2 =>
              rw [hdp] at h
              cases e2 with
              | dir =>
                injection h with h
                exact ⟨c, m, rfl, by simp [hdd], h.symm⟩
              | file c2 m2 => exact absurd h (by simp)

theorem copy2_shape {fs fs' : FS} {src dst : List String}
    (h : copy2 fs src dst = some fs') :
    ∃ d c m, lookupFS fs src = some (Entry.file c m) ∧
      ¬ lookupFS fs d = some Entry.dir ∧
      fs' = setEntry fs d (Entry.file c m) := by
  unfold copy2 at h
  obtain ⟨c, m, h1, h2, h3⟩ := copy2_at_shape h
  exact ⟨copy2_target fs src dst, c, m, h1, h2, h3⟩

theorem copy2_dir_stable {fs fs' : FS} {src dst q : List String}
    (h : copy2 fs src dst = some fs') :
    lookupFS fs' q = some Entry.dir ↔ lookupFS fs q = some Entry.dir := by
  obtain ⟨d, c, m, hsrc, hnd, rfl⟩ := copy2_shape h
  rw [lookup_set]
  by_cases hq : q = d
  · subst hq
    rw [if_pos rfl]
    constructor
    · intro hcontra
      exact absurd hcontra (by simp)
    · intro hcontra
      exact absurd hcontra hnd
  · rw [if_neg hq]

theorem copyStep_inv {dr sr : List String} {acc s1 : FS} {f : List String}
    (h : (match dest_path dr sr f with
          | some d => copy2 acc f d
          | none => none) = some s1) :
    ∃ d, dest_path dr sr f = some d ∧ copy2 acc f d = some s1 := by
  cases hd : dest_path dr sr f with
  | none => rw [hd] at h; exact absurd h (by simp)
  | some d => rw [hd] at h; exact ⟨d, rfl, h⟩

theorem dest_path_eq {dr sr f : List String} (h : sr <+: f) :
    dest_path dr sr f = some (dr ++ f.drop sr.length) := by
  simp [dest_path, relative_to, pref_bool.mpr h]

theorem dpath_inj {sr dr f f' : List String} (h1 : sr <+: f) (h2 : sr <+: f')
    (he : dr ++ f.drop sr.length = dr ++ f'.drop sr.length) : f = f' := by
  have h3 := List.append_cancel_left he
  rw [← pref_of_drop h1, ← pref_of_drop h2, h3]

theorem copyFiles_dir_stable {dr sr : List String} {fsB : FS} {files : List (List String)} :
    ∀ {fsA : FS}, copyFiles dr sr fsA files = some fsB →
    ∀ q, (lookupFS fsB q = some Entry.dir ↔ lookupFS fsA q = some Entry.dir) := by
  induction files with
  | nil =>
    intro fsA h q
    unfold copyFiles at h
    rw [foldlM_nil_some _ _ _ h]
  | cons f fl ih =>
    intro fsA h q
    unfold copyFiles at h
    obtain ⟨s1, h1, h2⟩ := foldlM_cons_some _ _ _ _ _ h
    obtain ⟨d, hd, hc⟩ := copyStep_inv h1
    rw [ih h2 q, copy2_dir_stable hc]

theorem copyFiles_spec {dr sr : List String} {fsB : FS} {files : List (List String)}
    (hrr1 : ¬ sr <+: dr) (hrr2 : ¬ dr <+: sr) :
    ∀ {fsA : FS}, copyFiles dr sr fsA files = some fsB →
    (∀ f ∈ files, sr <+: f) →
    (∀ f ∈ files, ¬ lookupFS fsA (dr ++ f.drop sr.length) = some Entry.dir) →
    (∀ z, (∀ f ∈ files, z ≠ dr ++ f.drop sr.length) → lookupFS fsB z = lookupFS fsA z) ∧
    (∀ f ∈ files, ∃ c m, lookupFS fsA f = some (Entry.file c m) ∧
      lookupFS fsB (dr ++ f.drop sr.length) = some (Entry.file c m)) := by
  induction files with
  | nil =>
    intro fsA hsuc _ _
    unfold copyFiles at hsuc
    rw [foldlM_nil_some _ _ _ hsuc]
    exact ⟨fun z _ => rfl, fun f hf => absurd hf (by simp)⟩
  | cons f fl ih =>
    intro fsA hsuc hsr hnodir
    unfold copyFiles at hsuc
    obtain ⟨s1, h1, h2⟩ := foldlM_cons_some _ _ _ _ _ hsuc
    obtain ⟨d, hd, hc⟩ := copyStep_inv h1
    have hsrf : sr <+: f := hsr f (List.mem_cons_self _ _)
    rw [dest_path_eq hsrf] at hd
    injection hd with hd
    subst hd
    have hnd : ¬ lookupFS fsA (dr ++ f.drop sr.length) = some Entry.dir :=
      hnodir f (List.mem_cons_self _ _)
    have htgt : copy2_target fsA f (dr ++ f.drop sr.length) = dr ++ f.drop sr.length := by
      unfold copy2_target
      cases hdd : lookupFS fsA (dr ++ f.drop sr.length) with
      | none => rfl
      | some e =>
        cases e with
        | file c m => rfl
        | dir => exact absurd hdd hnd
    unfold copy2 at hc
    rw [htgt] at hc
    obtain ⟨c, m, hsrcv, hnd2, hs1⟩ := copy2_at_shape hc
    subst hs1
    have hsr' : ∀ g ∈ fl, sr <+: g := fun g hg => hsr g (List.mem_cons_of_mem _ hg)
    have hnodir' : ∀ g ∈ fl,
        ¬ lookupFS (setEntry fsA (dr ++ f.drop sr.length) (Entry.file c m))
          (dr ++ g.drop sr.length) = some Entry.dir := by
      intro g hg
      rw [lookup_set]
      by_cases hgq : dr ++ g.drop sr.length = dr ++ f.drop sr.length
      · rw [if_pos hgq]
        simp
      · rw [if_neg hgq]
        exact hnodir g (List.mem_cons_of_mem _ hg)
    obtain ⟨frameT, specT⟩ := ih h2 hsr' hnodir'
    constructor
    · intro z hz
      rw [frameT z (fun g hg => hz g (List.mem_cons_of_mem _ hg))]
      rw [lookup_set, if_neg (hz f (List.mem_cons_self _ _))]
    · intro g hg
      rcases List.mem_cons.mp hg with rfl | hgl
      · by_cases hfl : g ∈ fl
        · obtain ⟨c', m', hv1, hv2⟩ := specT g hfl
          have hne : g ≠ dr ++ g.drop sr.length := by
            intro he
            have hdrf : dr <+: g := by
              rw [he]
              exact List.prefix_append _ _
            exact sr_dr_excl hrr1 hrr2 hsrf hdrf
          rw [lookup_set, if_neg hne] at hv1
          have heq := hsrcv.symm.trans hv1
          injection heq with heq
          injection heq with hceq hmeq
          subst hceq
          subst hmeq
          exact ⟨c, m, hsrcv, hv2⟩
        · refine ⟨c, m, hsrcv, ?_⟩
          rw [frameT (dr ++ g.drop sr.length) ?_]
          · rw [lookup_set, if_pos rfl]
          · intro g' hgmem he
            have : g = g' := dpath_inj hsrf (hsr' g' hgmem) he
            exact hfl (this ▸ hgmem)
      · obtain ⟨c', m', hv1, hv2⟩ := specT g hgl
        refine ⟨c', m', ?_, hv2⟩
        have hne : g ≠ dr ++ f.drop sr.length := by
          intro he
          have hdrf : dr <+: g := by
            rw [he]
            exact List.prefix_append _ _
          exact sr_dr_excl hrr1 hrr2 (hsr' g hgl) hdrf
        rw [lookup_set, if_neg hne] at hv1
        exact hv1

theorem rename_shape {fs fs' : FS} {src dst : List String}
    (h : renameFS fs src dst = some fs') :
    lookupFS fs dst = none ∧ fs' = fs.map (rnMap src dst) := by
  unfold renameFS at h
  cases hsrc : lookupFS fs src with
  | none => rw [hsrc] at h; exact absurd h (by simp)
  | some e =>
    rw [hsrc] at h
    cases hdst : lookupFS fs dst with
    | some e' => rw [hdst] at h; exact absurd h (by simp)
    | none =>
      rw [hdst] at h
      injection h with h
      exact ⟨rfl, h.symm⟩

theorem rnMap_pos {src dst x : List String} {e : Entry} (hsx : src.isPrefixOf x = true) :
    rnMap src dst (x, e) = (dst ++ x.drop src.length, e) := by
  unfold rnMap
  rw [if_pos hsx]

theorem rnMap_neg {src dst x : List String} {e : Entry} (hsx : ¬ src.isPrefixOf x = true) :
    rnMap src dst (x, e) = (x, e) := by
  unfold rnMap
  rw [if_neg hsx]

theorem rename_map_moved {src dst : List String} (q : List String) :
    ∀ (fs : FS), (∀ pe ∈ fs, ¬ dst <+: pe.1) →
    lookupFS (fs.map (rnMap src dst)) (dst ++ q) = lookupFS fs (src ++ q) := by
  intro fs
  induction fs with
  | nil => intro _; rfl
  | cons pe rest ih =>
    intro hfm
    rcases pe with ⟨x, e⟩
    have hx : ¬ dst <+: x := hfm _ (List.mem_cons_self _ _)
    have htail : ∀ pe ∈ rest, ¬ dst <+: pe.1 :=
      fun pe hp => hfm pe (List.mem_cons_of_mem _ hp)
    rw [List.map_cons]
    by_cases hsx : src.isPrefixOf x = true
    · obtain ⟨w, rfl⟩ := pref_bool.mp hsx
      rw [rnMap_pos hsx, List.drop_left]
      by_cases hw : w = q
      · subst hw
        rw [lookupFS, if_pos rfl, lookupFS, if_pos rfl]
      · have h1 : dst ++ w ≠ dst ++ q := fun he => hw (List.append_cancel_left he)
        have h2 : src ++ w ≠ src ++ q := fun he => hw (List.append_cancel_left he)
        rw [lookupFS, if_neg h1, lookupFS, if_neg h2]
        exact ih htail
    · have hsx' : ¬ src <+: x := fun hp => hsx (pref_bool.mpr hp)
      rw [rnMap_neg hsx]
      have h1 : x ≠ dst ++ q := by
        intro he
        exact hx (by rw [he]; exact List.prefix_append _ _)
      have h2 : x ≠ src ++ q := by
        intro he
        exact hsx' (by rw [he]; exact List.prefix_append _ _)
      rw [lookupFS, if_neg h1, lookupFS, if_neg h2]
      exact ih htail

theorem rename_map_gone {src dst : List String} (hnp1 : ¬ src <+: dst)
    (hnp2 : ¬ dst <+: src) (q : List String) :
    ∀ (fs : FS), lookupFS (fs.map (rnMap src dst)) (src ++ q) = none := by
  intro fs
  induction fs with
  | nil => rfl
  | cons pe rest ih =>
    rcases pe with ⟨x, e⟩
    rw [List.map_cons]
    by_cases hsx : src.isPrefixOf x = true
    · obtain ⟨w, rfl⟩ := pref_bool.mp hsx
      rw [rnMap_pos hsx, List.drop_left]
      have h1 : dst ++ w ≠ src ++ q := by
        intro he
        rcases pref_comparable (List.prefix_append dst w)
          (he ▸ List.prefix_append src q) with h' | h'
        · exact hnp2 h'
        · exact hnp1 h'
      rw [lookupFS, if_neg h1]
      exact ih
    · have hsx' : ¬ src <+: x := fun hp => hsx (pref_bool.mpr hp)
      rw [rnMap_neg hsx]
      have h1 : x ≠ src ++ q := by
        intro he
        exact hsx' (by rw [he]; exact List.prefix_append _ _)
      rw [lookupFS, if_neg h1]
      exact ih

theorem rename_map_frame {src dst : List String} {z : List String}
    (hz1 : ¬ src <+: z) (hz2 : ¬ dst <+: z) :
    ∀ (fs : FS), lookupFS (fs.map (rnMap src dst)) z = lookupFS fs z := by
  intro fs
  induction fs with
  | nil => rfl
  | cons pe rest ih =>
    rcases pe with ⟨x, e⟩
    rw [List.map_cons]
    by_cases hsx : src.isPrefixOf x = true
    · obtain ⟨w, rfl⟩ := pref_bool.mp hsx
      rw [rnMap_pos hsx, List.drop_left]
      have h1 : dst ++ w ≠ z := by
        intro he
        exact hz2 (by rw [← he]; exact List.prefix_append _ _)
      have h2 : src ++ w ≠ z := by
        intro he
        exact hz1 (by rw [← he]; exact List.prefix_append _ _)
      rw [lookupFS, if_neg h1, lookupFS, if_neg h2]
      exact ih
    · rw [rnMap_neg hsx]
      rw [lookupFS, lookupFS]
      by_cases hx : x = z
      · rw [if_pos hx, if_pos hx]
      · rw [if_neg hx, if_neg hx]
        exact ih

theorem rename_moved {fs fs' : FS} {src dst : List String}
    (h : renameFS fs src dst = some fs')
    (hfresh : ∀ q, dst <+: q → lookupFS fs q = none) (q : List String) :
    lookupFS fs' (dst ++ q) = lookupFS fs (src ++ q) := by
  obtain ⟨-, rfl⟩ := rename_shape h
  refine rename_map_moved q fs (fun pe hm hp => ?_)
  have h1 := lookup_isSome_of_mem hm
  rw [hfresh pe.1 hp] at h1
  exact absurd h1 (by simp)

theorem rename_gone {fs fs' : FS} {src dst : List String}
    (h : renameFS fs src dst = some fs')
    (hnp1 : ¬ src <+: dst) (hnp2 : ¬ dst <+: src) (q : List String) :
    lookupFS fs' (src ++ q) = none := by
  obtain ⟨-, rfl⟩ := rename_shape h
  exact rename_map_gone hnp1 hnp2 q fs

theorem rename_frame {fs fs' : FS} {src dst z : List String}
    (h : renameFS fs src dst = some fs')
    (hz1 : ¬ src <+: z) (hz2 : ¬ dst <+: z) :
    lookupFS fs' z = lookupFS fs z := by
  obtain ⟨-, rfl⟩ := rename_shape h
  exact rename_map_frame hz1 hz2 fs

theorem not_pref_of_bool {x y : List String} (h : x.isPrefixOf y = false) : ¬ x <+: y := by
  intro hp
  rw [pref_bool.mpr hp] at h
  exact Bool.noConfusion h

theorem processFolder_parts {sr dr : List String} {fs fs₂ : FS} {p : List String}
    (h : processFolder sr dr fs p = some fs₂) :
    ∃ fs₁ fsc, sr.isPrefixOf p = true ∧
      mkdir_parents fs (dr ++ p.drop sr.length) = some fs₁ ∧
      copyFiles dr sr fs₁ (sortPaths (rglob_dots fs₁ p)) = some fsc ∧
      renameFS fsc p (rn_path p) = some fs₂ := by
  unfold processFolder at h
  cases hrel : relative_to p sr with
  | none => rw [hrel] at h; exact absurd h (by simp)
  | some rel =>
    rw [hrel] at h
    dsimp only at h
    have hp : sr.isPrefixOf p = true := by
      unfold relative_to at hrel
      by_cases hb : sr.isPrefixOf p = true
      · exact hb
      · rw [if_neg hb] at hrel
        exact absurd hrel (by simp)
    have hrelv : rel = p.drop sr.length := by
      unfold relative_to at hrel
      rw [if_pos hp] at hrel
      injection hrel with h'
      exact h'.symm
    subst hrelv
    cases hm : mkdir_parents fs (dr ++ p.drop sr.length) with
    | none => rw [hm] at h; exact absurd h (by simp)
    | some fs₁ =>
      rw [hm] at h
      dsimp only at h
      cases hcf : copyFiles dr sr fs₁ (sortPaths (rglob_dots fs₁ p)) with
      | none => rw [hcf] at h; exact absurd h (by simp)
      | some fsc =>
        rw [hcf] at h
        dsimp only at h
        exact ⟨fs₁, fsc, hp, rfl, hcf, h⟩

theorem run_parts {sps : List (List String)} {sr dr : List String} {fs fs' : FS}
    (h : runCopyThread sps sr dr fs = some fs') :
    get_total_files fs sps ≠ 0 ∧ sps.foldlM (processFolder sr dr) fs = some fs' := by
  unfold runCopyThread at h
  by_cases ht : get_total_files fs sps = 0
  · rw [if_pos ht] at h
    exact absurd h (by simp)
  · rw [if_neg ht] at h
    exact ⟨ht, h⟩

theorem pref_cancel_mpr {α : Type} (u : List α) {s t : List α} (h : s <+: t) :
    u ++ s <+: u ++ t :=
  pref_cancel.mpr h

theorem fold_step {sr dr : List String} {fs0 : FS} {sps : List (List String)}
    (Hrr1 : ¬ sr <+: dr) (Hrr2 : ¬ dr <+: sr)
    (Hunder : ∀ p ∈ sps, sr <+: p ∧ p ≠ sr)
    (Hsep : ∀ p ∈ sps, ∀ p' ∈ sps, p ≠ p' →
      ¬ p <+: p' ∧ ¬ rn_path p <+: p' ∧ ¬ p <+: rn_path p' ∧ ¬ rn_path p <+: rn_path p')
    {S T : List (List String)} {p : List String} {fsc fs₂ : FS}
    (hmemS : ∀ x ∈ S, x ∈ sps) (hmemp : p ∈ sps) (hmemT : ∀ x ∈ T, x ∈ sps)
    (hdisS : ∀ x ∈ S, x ≠ p) (hdisT : ∀ x ∈ T, x ≠ p)
    (hinv : FoldInv sr dr fs0 fsc S (p :: T))
    (hstep : processFolder sr dr fsc p = some fs₂) :
    FoldInv sr dr fs0 fs₂ (S ++ [p]) T := by
  obtain ⟨fs₁, fsc', hpb, hmk, hcf, hrn⟩ := processFolder_parts hstep
  obtain ⟨hpu, hpne⟩ := Hunder p hmemp
  have hpnil : p ≠ [] := by
    obtain ⟨v, rfl⟩ := hpu
    intro h0
    rcases List.append_eq_nil.mp h0 with ⟨h1, h2⟩
    rw [h1, h2] at hpne
    exact hpne rfl
  have hrnp : sr <+: rn_path p := rn_sr_pref hpu hpne
  have hfmem : ∀ f ∈ sortPaths (rglob_dots fs₁ p), p <+: f ∧ p.length < f.length := by
    intro f hf
    have h1 := mem_sortPaths.mp hf
    have h2 := (mem_rglob.mp h1).2
    simp only [Bool.and_eq_true, decide_eq_true_eq] at h2
    exact ⟨pref_bool.mp h2.1.1, h2.1.2⟩
  have hfsr : ∀ f ∈ sortPaths (rglob_dots fs₁ p), sr <+: f :=
    fun f hf => hpu.trans (hfmem f hf).1
  have hmkframe : ∀ x, sr <+: x → ∀ q, lookupFS fs₁ (x ++ q) = lookupFS fsc (x ++ q) := by
    intro x hx q
    exact mkdir_frame hmk
      (sr_ext_not_pref_target Hrr1 Hrr2 (hx.trans (List.prefix_append x q)) _)
  have hnodir : ∀ f ∈ sortPaths (rglob_dots fs₁ p),
      ¬ lookupFS fs₁ (dr ++ f.drop sr.length) = some Entry.dir := by
    intro f hf hdir
    obtain ⟨hpf, hlen⟩ := hfmem f hf
    rcases mkdir_dir_char hmk hdir with hold | hpre
    · obtain ⟨p', hp'S, hp'pre⟩ := hinv.destdirs _ (List.prefix_append dr _) hold
      have h1 : f.drop sr.length <+: p'.drop sr.length := pref_cancel.mp hp'pre
      have hp'u := (Hunder p' (hmemS p' hp'S)).1
      have h2 : f <+: p' := by
        have h3 := pref_cancel_mpr sr h1
        rw [pref_of_drop (hfsr f hf), pref_of_drop hp'u] at h3
        exact h3
      have hne : p ≠ p' := fun he => (hdisS p' hp'S) he.symm
      exact (Hsep p hmemp p' (hmemS p' hp'S) hne).1 (hpf.trans h2)
    · have h1 : f.drop sr.length <+: p.drop sr.length := pref_cancel.mp hpre
      have h2 : f <+: p := by
        have h3 := pref_cancel_mpr sr h1
        rw [pref_of_drop (hfsr f hf), pref_of_drop hpu] at h3
        exact h3
      have := h2.length_le
      omega
  obtain ⟨cframe, cspec⟩ := copyFiles_spec Hrr1 Hrr2 hcf hfsr hnodir
  have hcpframe : ∀ x, sr <+: x → ∀ q, lookupFS fsc' (x ++ q) = lookupFS fs₁ (x ++ q) := by
    intro x hx q
    refine cframe _ (fun f hf he => ?_)
    have hdrz : dr <+: x ++ q := by
      rw [he]
      exact List.prefix_append _ _
    exact sr_dr_excl Hrr1 Hrr2 (hx.trans (List.prefix_append x q)) hdrz
  have hrnframe : ∀ z, ¬ p <+: z → ¬ rn_path p <+: z →
      lookupFS fs₂ z = lookupFS fsc' z :=
    fun z h1 h2 => rename_frame hrn h1 h2
  have hotherframe : ∀ p' ∈ sps, p' ≠ p → ∀ x, (x = p' ∨ x = rn_path p') →
      ∀ q, lookupFS fs₂ (x ++ q) = lookupFS fsc (x ++ q) := by
    intro p' hp' hne x hx q
    have hp'u := (Hunder p' hp').1
    have hp'ne := (Hunder p' hp').2
    have hxsr : sr <+: x := by
      rcases hx with rfl | rfl
      · exact hp'u
      · exact rn_sr_pref hp'u hp'ne
    have hsep1 := Hsep p hmemp p' hp' (fun he => hne he.symm)
    have hsep2 := Hsep p' hp' p hmemp hne
    have hnp : ¬ p <+: x ++ q := by
      rcases hx with rfl | rfl
      · exact not_pref_ext hsep1.1 hsep2.1 q
      · exact not_pref_ext hsep1.2.2.1 hsep2.2.1 q
    have hnrp : ¬ rn_path p <+: x ++ q := by
      rcases hx with rfl | rfl
      · exact not_pref_ext hsep1.2.1 hsep2.2.2.1 q
      · exact not_pref_ext hsep1.2.2.2 hsep2.2.2.2 q
    rw [hrnframe _ hnp hnrp, hcpframe x hxsr q, hmkframe x hxsr q]
  have hdrrnframe : ∀ z, dr <+: z → lookupFS fs₂ z = lookupFS fsc' z := by
    intro z hz
    refine hrnframe z ?_ ?_
    · intro hp2
      exact sr_dr_excl Hrr1 Hrr2 (hpu.trans hp2) hz
    · intro hp2
      exact sr_dr_excl Hrr1 Hrr2 (hrnp.trans hp2) hz
  have hfreshrn : ∀ z, rn_path p <+: z → lookupFS fsc' z = none := by
    intro z hz
    obtain ⟨w, rfl⟩ := hz
    rw [hcpframe _ hrnp w, hmkframe _ hrnp w]
    exact hinv.fresh p (List.mem_cons_self _ _) w
  have hrnnp := rn_not_pref hpnil
  refine ⟨?_, ?_, ?_, ?_, ?_, ?_⟩
  · intro p' hp' q
    rw [hotherframe p' (hmemT p' hp') (hdisT p' hp') p' (Or.inl rfl) q]
    exact hinv.untouched p' (List.mem_cons_of_mem _ hp') q
  · intro p' hp' q
    rw [hotherframe p' (hmemT p' hp') (hdisT p' hp') (rn_path p') (Or.inr rfl) q]
    exact hinv.fresh p' (List.mem_cons_of_mem _ hp') q
  · intro p' hp' q
    rcases List.mem_append.mp hp' with hS | hp'p
    · rw [hotherframe p' (hmemS p' hS) (hdisS p' hS) p' (Or.inl rfl) q]
      exact hinv.gone p' hS q
    · have hpp : p = p' := by
        have hh := hp'p
        simp at hh
        exact hh.symm
      subst hpp
      exact rename_gone hrn hrnnp.2 hrnnp.1 q
  · intro p' hp' q
    rcases List.mem_append.mp hp' with hS | hp'p
    · rw [hotherframe p' (hmemS p' hS) (hdisS p' hS) (rn_path p') (Or.inr rfl) q]
      exact hinv.moved p' hS q
    · have hpp : p = p' := by
        have hh := hp'p
        simp at hh
        exact hh.symm
      subst hpp
      rw [rename_moved hrn hfreshrn q, hcpframe p hpu q, hmkframe p hpu q]
      exact hinv.untouched p (List.mem_cons_self _ _) q
  · intro p' hp' f hf
    rcases List.mem_append.mp hp' with hS | hp'p
    · obtain ⟨c, m, hv0, hvc⟩ := hinv.copiedf p' hS f hf
      refine ⟨c, m, hv0, ?_⟩
      have h1 : lookupFS fs₁ (dr ++ f.drop sr.length) = some (Entry.file c m) :=
        mkdir_file_frame hmk hvc
      have hp'u := (Hunder p' (hmemS p' hS)).1
      have hp'f : p' <+: f := by
        have h4 := (mem_rglob.mp hf).2
        simp only [Bool.and_eq_true, decide_eq_true_eq] at h4
        exact pref_bool.mp h4.1.1
      have hsrf' : sr <+: f := hp'u.trans hp'f
      have h2 : lookupFS fsc' (dr ++ f.drop sr.length) = some (Entry.file c m) := by
        rw [cframe _ ?_]
        · exact h1
        · intro g hg he
          have hfg : f = g := dpath_inj hsrf' (hfsr g hg) he
          subst hfg
          have hpf := (hfmem f hg).1
          have hne : p' ≠ p := hdisS p' hS
          rcases pref_comparable hpf hp'f with hcc | hcc
          · exact (Hsep p hmemp p' (hmemS p' hS) (fun he2 => hne he2.symm)).1 hcc
          · exact (Hsep p' (hmemS p' hS) p hmemp hne).1 hcc
      rw [hdrrnframe _ (List.prefix_append dr _)]
      exact h2
    · have hpp : p = p' := by
        have hh := hp'p
        simp at hh
        exact hh.symm
      subst hpp
      have hpred := (mem_rglob.mp hf).2
      have hsome0 := (mem_rglob.mp hf).1
      have hpf : p <+: f := by
        have h4 := hpred
        simp only [Bool.and_eq_true, decide_eq_true_eq] at h4
        exact pref_bool.mp h4.1.1
      obtain ⟨y, rfl⟩ := hpf
      have hval : lookupFS fs₁ (p ++ y) = lookupFS fs0 (p ++ y) := by
        rw [hmkframe p hpu y]
        exact hinv.untouched p (List.mem_cons_self _ _) y
      have hmem1 : (p ++ y) ∈ sortPaths (rglob_dots fs₁ p) := by
        refine mem_sortPaths.mpr (mem_rglob.mpr ⟨?_, hpred⟩)
        rw [hval]
        exact hsome0
      obtain ⟨c, m, hv1, hv2⟩ := cspec _ hmem1
      refine ⟨c, m, ?_, ?_⟩
      · rw [← hval]
        exact hv1
      · rw [hdrrnframe _ (List.prefix_append dr _)]
        exact hv2
  · intro q hq hd
    rw [hdrrnframe q hq] at hd
    rw [copyFiles_dir_stable hcf q] at hd
    rcases mkdir_dir_char hmk hd with hold | hpre
    · obtain ⟨p', hp'S, hp'pre⟩ := hinv.destdirs q hq hold
      exact ⟨p', List.mem_append.mpr (Or.inl hp'S), hp'pre⟩
    · exact ⟨p, List.mem_append.mpr (Or.inr (List.mem_singleton.mpr rfl)), hpre⟩

theorem fold_inv {sr dr : List String} {fs0 : FS} {sps : List (List String)}
    (Hrr1 : ¬ sr <+: dr) (Hrr2 : ¬ dr <+: sr)
    (Hunder : ∀ p ∈ sps, sr <+: p ∧ p ≠ sr)
    (Hsep : ∀ p ∈ sps, ∀ p' ∈ sps, p ≠ p' →
      ¬ p <+: p' ∧ ¬ rn_path p <+: p' ∧ ¬ p <+: rn_path p' ∧ ¬ rn_path p <+: rn_path p') :
    ∀ (T S : List (List String)) (fsc fs' : FS),
    T.foldlM (processFolder sr dr) fsc = some fs' →
    (∀ x ∈ S, x ∈ sps) → (∀ x ∈ T, x ∈ sps) →
    (∀ x ∈ S, ∀ y ∈ T, x ≠ y) → T.Nodup →
    FoldInv sr dr fs0 fsc S T →
    FoldInv sr dr fs0 fs' (S ++ T) [] := by
  intro T
  induction T with
  | nil =>
    intro S fsc fs' h hS hT hST hnd hinv
    rw [foldlM_nil_some _ _ _ h, List.append_nil]
    exact hinv
  | cons p T' ih =>
    intro S fsc fs' h hS hT hST hnd hinv
    obtain ⟨fs₂, h1, h2⟩ := foldlM_cons_some _ _ _ _ _ h
    obtain ⟨hpnotin, hnd'⟩ := List.nodup_cons.mp hnd
    have hmemp : p ∈ sps := hT p (List.mem_cons_self _ _)
    have hmemT' : ∀ x ∈ T', x ∈ sps := fun x hx => hT x (List.mem_cons_of_mem _ hx)
    have hdisS : ∀ x ∈ S, x ≠ p := fun x hx => hST x hx p (List.mem_cons_self _ _)
    have hdisT' : ∀ x ∈ T', x ≠ p := fun x hx he => hpnotin (he ▸ hx)
    have hinv2 : FoldInv sr dr fs0 fs₂ (S ++ [p]) T' :=
      fold_step Hrr1 Hrr2 Hunder Hsep hS hmemp hmemT' hdisS hdisT' hinv h1
    have hS2 : ∀ x ∈ S ++ [p], x ∈ sps := by
      intro x hx
      rcases List.mem_append.mp hx with h' | h'
      · exact hS x h'
      · have hxp : x = p := by simpa using h'
        exact hxp ▸ hmemp
    have hST2 : ∀ x ∈ S ++ [p], ∀ y ∈ T', x ≠ y := by
      intro x hx y hy he
      rcases List.mem_append.mp hx with h' | h'
      · exact hST x h' y (List.mem_cons_of_mem _ hy) he
      · have hxp : x = p := by simpa using h'
        rw [he] at hxp
        exact hpnotin (hxp ▸ hy)
    have hres := ih (S ++ [p]) fs₂ fs' h2 hS2 hmemT' hST2 hnd' hinv2
    rw [List.append_assoc, List.singleton_append] at hres
    exact hres

/-! ## Claims -/

/-- Claim C1: the test vectors of the spec for the file-size formatter.
`format_size(0) = "0 B"` and `format_size(1024) = "1.0 KB"` hold, but
`format_size(1536)` evaluates to `"1.0 KB"`, not the claimed `"1.5 KB"`:
the scaled value is computed with integer floor division
(`int(size_bytes // 1024 ** i)`), so the single decimal is always `.0`. -/
theorem c1_format_size_vectors :
    format_size 0 = some "0 B" ∧ format_size 1024 = some "1.0 KB" ∧
    format_size 1536 = some "1.0 KB" :=
  ⟨rfl, rfl, rfl⟩

/-- Claim C2: `format_size` neither always returns (the claim says it never
raises) nor chooses the unit by magnitude: the walrus-computed unit index is
overwritten by the scaled value, which is then reused as the index into
`size_names`.  At 2048 bytes the result is `"2.0 MB"` (the magnitude is KB),
and at 9216 bytes the index 9 is out of range, raising `IndexError`
(modelled as `none`). -/
theorem c2_format_size_bug :
    format_size 2048 = some "2.0 MB" ∧ format_size 9216 = none :=
  ⟨rfl, rfl⟩

/-- Claim C3: With a zero total file count (an empty source-folder list, or
folders in which nothing matches `*.*`), the progress computation at the
start of `CopyThread.run` raises `ZeroDivisionError` at
`transfer_percentage = copied_files / total_files` (line 95), modelled as
`none`; the run aborts instead of producing the defined result (0 % done,
0 remaining) the claim demands. -/
theorem c3_zero_total_divzero :
    (∀ fs : FS, get_total_files fs [] = 0) ∧
    initial_transfer_percentage 0 = none ∧
    (∀ (sr dr : List String) (fs : FS), runCopyThread [] sr dr fs = none) ∧
    get_total_files fsNoMatch [["L", "s1"]] = 0 ∧
    runCopyThread [["L", "s1"]] ["L"] ["D"] fsNoMatch = none :=
  ⟨fun fs => rfl, rfl, fun sr dr fs => rfl, by decide, by decide⟩

/-- Claim C4 counterexample: The single character `"{"` is present but
unparsable content, and `read_temp_file` propagates the parse error
(`json.load` is not wrapped in any handler) instead of returning the empty
record the claim promises. -/
theorem c4_unparsable_raises :
    json_loads "\x7b" = none ∧ read_temp_file (some "\x7b") = Except.error () :=
  ⟨rfl, rfl⟩

/-- Claim C4 amended: `read_temp_file` returns the empty record when the
settings file is absent; when the file is present but its content is
unparsable, the `json.JSONDecodeError` propagates to the caller. -/
theorem c4_parse_error_propagates :
    (∀ s, json_loads s = none → read_temp_file (some s) = Except.error ()) ∧
    read_temp_file none = Except.ok (JValue.jobj []) := by
  constructor
  · intro s h
    unfold read_temp_file
    dsimp only
    rw [h]
  · rfl

/-- Claim C4 witness: the amended claim applied to the concrete content `"{"`. -/
theorem c4_parse_error_propagates_witness :
    read_temp_file (some "\x7b") = Except.error () :=
  c4_parse_error_propagates.1 "\x7b" rfl

/-- Claim C5: Round trip: writing the settings record
`{"source_root": "A", "destination_root": "B"}` and reading it back yields
exactly that record, and reading when no settings file exists yields the
empty record without error. -/
theorem c5_round_trip :
    read_temp_file (some (write_temp_file
      [("source_root", "A"), ("destination_root", "B")])) = Except.ok settingsAB ∧
    read_temp_file none = Except.ok (JValue.jobj []) :=
  ⟨rfl, rfl⟩

/-- Claim C6 counterexample: In `fsNested` the file `L/s1/sub/f.txt` is
enumerated, but the worker only created the mirrored directory `D/s1` of the
source folder itself, not `D/s1/sub`, so `shutil.copy2` fails and the whole
job aborts — contradicting the claim that the destination directory of every
enumerated file exists when it is copied. -/
theorem c6_nested_copy_fails :
    ["L", "s1", "sub", "f.txt"] ∈ rglob_dots fsNested ["L", "s1"] ∧
    runCopyThread [["L", "s1"]] ["L"] ["D"] fsNested = none := by
  constructor
  · decide
  · decide

/-- Claim C6 amended: Before copying, the worker creates (with parents)
only the mirrored destination directory of the source folder itself; a file
directly inside the source folder therefore copies successfully, but a file
inside a nested subdirectory finds its destination directory missing and
the copy fails. -/
theorem c6_mkdir_top_level_only :
    (runCopyThread [["L", "s1"]] ["L"] ["D"] fsFlat).isSome = true ∧
    lookupFS ((runCopyThread [["L", "s1"]] ["L"] ["D"] fsFlat).getD []) ["D", "s1"]
      = some Entry.dir ∧
    lookupFS ((runCopyThread [["L", "s1"]] ["L"] ["D"] fsFlat).getD []) ["D", "s1", "a.txt"]
      = some (Entry.file "x" 1) ∧
    runCopyThread [["L", "s1"]] ["L"] ["D"] fsNested = none := by
  refine ⟨?_, ?_, ?_, ?_⟩ <;> decide

/-- Claim C7: Path-mapping invariant: whenever the worker computes a
destination path `d` for a source file `f` (by substituting the destination
root for the source-root prefix, `dest_path`), the destination path relative
to the destination root equals the source path relative to the source
root. -/
theorem c7_path_mapping (sroot droot f d : List String)
    (h : dest_path droot sroot f = some d) :
    relative_to d droot = relative_to f sroot := by
  unfold dest_path at h
  cases hrel : relative_to f sroot with
  | none => rw [hrel] at h; exact absurd h (by simp)
  | some rel =>
    rw [hrel] at h
    simp only [Option.map_some'] at h
    injection h with h
    subst h
    have hfin : relative_to (droot ++ rel) droot = some rel := by
      simp [relative_to, pref_bool.mpr (List.prefix_append droot rel), List.drop_left]
    exact hfin

/-- Claim C7 witness: the invariant at the concrete file `L/s1/a.txt`. -/
theorem c7_path_mapping_witness :
    relative_to ["D", "s1", "a.txt"] ["D"] = relative_to ["L", "s1", "a.txt"] ["L"] :=
  c7_path_mapping ["L"] ["D"] ["L", "s1", "a.txt"] ["D", "s1", "a.txt"] (by decide)

/-- Claim C8 counterexample: The dotfile `.env` contains a dot, so the
`fnmatch` translation of `*.*` matches it: it is enumerated for copying and
counted by `get_total_files` (`fsDots` holds `.env`, `a.txt`, `sub/b.txt`
and the dotless `noext` and `sub`, and the count is 3) — dotfiles are not
excluded, contrary to the claim. -/
theorem c8_dotfile_counted :
    ["L", "s1", ".env"] ∈ rglob_dots fsDots ["L", "s1"] ∧
    get_total_files fsDots [["L", "s1"]] = 3 := by
  constructor
  · decide
  · decide

/-- Claim C8 amended: The matching rule used for the up-front count and for
the copy enumeration selects exactly the names containing at least one dot:
the final name of every enumerated entry contains a dot, extension-less names
(`noext`, `sub`) are silently excluded from count and copy, and dotfiles
(`.env`) contain a dot and are included. -/
theorem c8_dot_rule :
    (∀ (fs : FS) (p q : List String), q ∈ rglob_dots fs p →
      matches_pat (lastName q) = true) ∧
    rglob_dots fsDots ["L", "s1"]
      = [["L", "s1", ".env"], ["L", "s1", "a.txt"], ["L", "s1", "sub", "b.txt"]] ∧
    get_total_files fsDots [["L", "s1"]] = 3 := by
  refine ⟨?_, by decide, by decide⟩
  intro fs p q hq
  have h := (mem_rglob.mp hq).2
  simp only [Bool.and_eq_true] at h
  exact h.2

/-- Claim C8 witness: the amended rule applied to the concrete dotfile. -/
theorem c8_dot_rule_witness :
    matches_pat (lastName ["L", "s1", ".env"]) = true :=
  c8_dot_rule.1 fsDots ["L", "s1"] ["L", "s1", ".env"] (by decide)

/-- Claim C10: The `*.*` enumeration matches any entry whose final name
contains a dot, directories included: in `fsDirDot` the directory
`L/s1/v1.0` is counted by `get_total_files` (total 2 for a tree with one
regular file), it sorts first in the copy list, `shutil.copy2` of that
directory raises (`none`), and the whole run aborts. -/
theorem c10_dir_matched_and_copied :
    get_total_files fsDirDot [["L", "s1"]] = 2 ∧
    ["L", "s1", "v1.0"] ∈ rglob_dots fsDirDot ["L", "s1"] ∧
    lookupFS fsDirDot ["L", "s1", "v1.0"] = some Entry.dir ∧
    (sortPaths (rglob_dots fsDirDot ["L", "s1"])).head? = some ["L", "s1", "v1.0"] ∧
    copy2 fsDirDot ["L", "s1", "v1.0"] ["D", "s1", "v1.0"] = none ∧
    runCopyThread [["L", "s1"]] ["L"] ["D"] fsDirDot = none := by
  refine ⟨?_, ?_, ?_, ?_, ?_, ?_⟩ <;> decide

/-- Claim C9: After a successful job (`runCopyThread … = some fs'`) on
folders that lie strictly under the source root, with source and
destination roots not nested in one another, with pairwise non-nested
folders and underscore-siblings, with no pre-existing entries under any
underscore-sibling or under the destination root, every source folder in
the list is gone from its original path (its whole subtree), the
underscore-prefixed sibling under the same parent holds exactly the
original subtree (entry for entry), and — since the rename is the last step
of processing a folder — every file matched in that folder was copied to
its destination before the rename took effect. -/
theorem c9_rename_after_copy
    (sps : List (List String)) (sr dr : List String) (fs fs' : FS)
    (hrun : runCopyThread sps sr dr fs = some fs')
    (hrr1 : sr.isPrefixOf dr = false) (hrr2 : dr.isPrefixOf sr = false)
    (hunder : ∀ p ∈ sps, sr.isPrefixOf p = true ∧ p ≠ sr)
    (hsep : ∀ p ∈ sps, ∀ p' ∈ sps, p ≠ p' →
      p.isPrefixOf p' = false ∧ (rn_path p).isPrefixOf p' = false ∧
      p.isPrefixOf (rn_path p') = false ∧ (rn_path p).isPrefixOf (rn_path p') = false)
    (hfresh : ∀ p ∈ sps, ∀ pe ∈ fs, (rn_path p).isPrefixOf pe.1 = false)
    (hdempty : ∀ pe ∈ fs, dr.isPrefixOf pe.1 = false)
    (hnd : sps.Nodup) :
    ∀ p ∈ sps,
      (∀ q, lookupFS fs' (p ++ q) = none) ∧
      (∀ q, lookupFS fs' (rn_path p ++ q) = lookupFS fs (p ++ q)) ∧
      (∀ f ∈ rglob_dots fs p, ∃ c m, lookupFS fs f = some (Entry.file c m) ∧
        lookupFS fs' (dr ++ f.drop sr.length) = some (Entry.file c m)) := by
  obtain ⟨-, hfold⟩ := run_parts hrun
  have Hrr1 : ¬ sr <+: dr := not_pref_of_bool hrr1
  have Hrr2 : ¬ dr <+: sr := not_pref_of_bool hrr2
  have Hunder : ∀ p ∈ sps, sr <+: p ∧ p ≠ sr :=
    fun p hp => ⟨pref_bool.mp (hunder p hp).1, (hunder p hp).2⟩
  have Hsep : ∀ p ∈ sps, ∀ p' ∈ sps, p ≠ p' →
      ¬ p <+: p' ∧ ¬ rn_path p <+: p' ∧ ¬ p <+: rn_path p' ∧
      ¬ rn_path p <+: rn_path p' := by
    intro p hp p' hp' hne
    obtain ⟨h1, h2, h3, h4⟩ := hsep p hp p' hp' hne
    exact ⟨not_pref_of_bool h1, not_pref_of_bool h2,
      not_pref_of_bool h3, not_pref_of_bool h4⟩
  have hinv0 : FoldInv sr dr fs fs [] sps := by
    refine ⟨?_, ?_, ?_, ?_, ?_, ?_⟩
    · intro p hp q
      rfl
    · intro p hp q
      exact lookup_none_of_no_entry
        (fun pe hm => not_pref_of_bool (hfresh p hp pe hm)) _ (List.prefix_append _ _)
    · intro p hp q
      exact absurd hp (by simp)
    · intro p hp q
      exact absurd hp (by simp)
    · intro p hp f hf
      exact absurd hp (by simp)
    · intro q hq hd
      have h0 := lookup_none_of_no_entry
        (fun pe hm => not_pref_of_bool (hdempty pe hm)) q hq
      rw [h0] at hd
      exact absurd hd (by simp)
  have hfin := fold_inv Hrr1 Hrr2 Hunder Hsep sps [] fs fs' hfold
    (fun x hx => absurd hx (by simp)) (fun x hx => hx)
    (fun x hx => absurd hx (by simp)) hnd hinv0
  rw [List.nil_append] at hfin
  intro p hp
  exact ⟨hfin.gone p hp, hfin.moved p hp, hfin.copiedf p hp⟩

/-- Claim C9 witness: the theorem applied to the concrete single-folder job
on `fsFlat`, whose successful run produces `fsFlatDone`: the folder
`L/s1` is gone, `L/_s1` holds the original directory and file, and the
matched file was copied to `D/s1/a.txt`. -/
theorem c9_rename_after_copy_witness :
    lookupFS fsFlatDone ["L", "s1", "a.txt"] = none ∧
    lookupFS fsFlatDone ["L", "_s1"] = lookupFS fsFlat ["L", "s1"] ∧
    lookupFS fsFlatDone ["L", "_s1", "a.txt"] = lookupFS fsFlat ["L", "s1", "a.txt"] := by
  have h := c9_rename_after_copy [["L", "s1"]] ["L"] ["D"] fsFlat fsFlatDone
    (by decide) (by decide) (by decide) (by decide) (by decide) (by decide)
    (by decide) (by decide)
  obtain ⟨h1, h2, h3⟩ := h ["L", "s1"] (by decide)
  exact ⟨h1 ["a.txt"], h2 [], h2 ["a.txt"]⟩
